import Mathlib

/-!
Verification of the availability-resolution core of the calendar-agent
repository (`src/find_slot_and_create.py`, driven by `src/agent.py`).

Modelling conventions:

* A `TimeInstant` is modelled as an `Int`, measured in minutes.  The source
  threads ISO-8601 timestamp strings (merging compares them lexicographically,
  inversion parses them with `datetime.fromisoformat`); on normalised UTC
  ISO-8601 strings both orders agree with instant order, so parsing is the
  identity here and all comparisons are `Int` comparisons.
* An interval is a pair `(start, end) : Int × Int`, exactly as the source
  passes `(start, end)` tuples.
* A timezone is modelled as its fixed UTC offset in minutes, and
  `datetime.datetime.combine(day, time, tzinfo)` as the corresponding UTC
  instant of the given local wall-clock time.
* Python's stable `list.sort(key = start)` is modelled with the stable
  `List.mergeSort` ordered by first component; stability makes any two stable
  sorts by the same key agree, so this is behaviour-exact.
-/

namespace CalendarAgent

/-- Boolean test that `needle` occurs at the head of `hay` (character lists). -/
def startsWithChars : List Char → List Char → Bool
  | [], _ => true
  | _ :: _, [] => false
  | c :: cs, d :: ds => c == d && startsWithChars cs ds

/-- Model of Python's `str.lower()`: lowercase every character. -/
def str_lower (s : String) : String :=
  String.mk (s.data.map Char.toLower)

/-- Python's substring test `needle in hay` on strings. -/
def strContains (hay needle : String) : Bool :=
  hay.data.tails.any (fun t => startsWithChars needle.data t)

/-- Model of `datetime.datetime.combine(day_cursor, time, tzinfo=user_tz)`:
the UTC instant (in minutes) of local wall-clock minute `t` on day `day`
in a zone whose fixed UTC offset is `tz` minutes. -/
def combine (day t tz : Int) : Int :=
  day * 1440 + t - tz

/-- Embedding of `preferred_hours_to_windows(preferred_times, day_cursor,
user_tz)` (`src/find_slot_and_create.py` lines 49-71): a window list starting
empty; a tag whose lowercasing contains `"morning"` appends the 09:00-12:00
window; if the list is still empty the full workday 09:00-17:00 is appended. -/
def preferred_hours_to_windows (preferred_times : String) (day_cursor user_tz : Int) :
    List (Int × Int) :=
  let windows : List (Int × Int) :=
    if strContains (str_lower preferred_times) "morning" then
      [(combine day_cursor 540 user_tz, combine day_cursor 720 user_tz)]
    else
      []
  if windows = [] then
    [(combine day_cursor 540 user_tz, combine day_cursor 1020 user_tz)]
  else
    windows

/-- Model of the sort key `key=lambda x: x[0]` used by `merge_busy_intervals`:
compare intervals by their start component only. -/
def byStart (a b : Int × Int) : Bool :=
  decide (a.1 ≤ b.1)

/-- The left-to-right sweep of `merge_busy_intervals`
(`src/find_slot_and_create.py` lines 102-113), carrying the running
`(current_start, current_end)` pair: an interval whose start is strictly
below `current_end` extends it to `max current_end next_end`; otherwise the
running interval is closed out and restarted at the next interval. -/
def mergeSweep : Int → Int → List (Int × Int) → List (Int × Int)
  | current_start, current_end, [] => [(current_start, current_end)]
  | current_start, current_end, (next_start, next_end) :: rest =>
    if next_start < current_end then
      mergeSweep current_start (max current_end next_end) rest
    else
      (current_start, current_end) :: mergeSweep next_start next_end rest

/-- Embedding of `merge_busy_intervals(calendars)`
(`src/find_slot_and_create.py` lines 88-113): flatten every calendar's busy
list, return `[]` when nothing is busy, otherwise stably sort by start and
run the sweep from the first interval. -/
def merge_busy_intervals (calendars : List (List (Int × Int))) : List (Int × Int) :=
  match calendars.flatten.mergeSort byStart with
  | [] => []
  | (s, e) :: rest => mergeSweep s e rest

/-- The sweep of `invert_busy_to_free` (`src/find_slot_and_create.py` lines
122-139), carrying `last_end`: a busy start strictly above `last_end` emits
the gap `(last_end, busy_start)`, then `last_end` advances to
`max last_end busy_end`; after the list is exhausted a trailing slot
`(last_end, window_end)` is emitted when `last_end < window_end`. -/
def invertSweep : Int → Int → List (Int × Int) → List (Int × Int)
  | last_end, window_end, [] =>
    if last_end < window_end then [(last_end, window_end)] else []
  | last_end, window_end, (busy_start, busy_end) :: rest =>
    if last_end < busy_start then
      (last_end, busy_start) :: invertSweep (max last_end busy_end) window_end rest
    else
      invertSweep (max last_end busy_end) window_end rest

/-- Embedding of `invert_busy_to_free(merged_busy, window_start, window_end)`
(`src/find_slot_and_create.py` lines 115-139): an empty busy list returns the
whole window as the sole slot; otherwise the sweep runs from
`last_end = window_start`. -/
def invert_busy_to_free (merged_busy : List (Int × Int)) (window_start window_end : Int) :
    List (Int × Int) :=
  if merged_busy = [] then [(window_start, window_end)]
  else invertSweep window_start window_end merged_busy

/-- Embedding of `find_first_slot(candidate_free, duration)`
(`src/find_slot_and_create.py` lines 141-150): first candidate with
`free_end - free_start >= duration` yields
`(free_start, free_start + duration)`; Python's `(None, None)` fall-through
is `none`. -/
def find_first_slot : List (Int × Int) → Int → Option (Int × Int)
  | [], _ => none
  | (free_start, free_end) :: rest, duration =>
    if duration ≤ free_end - free_start then
      some (free_start, free_start + duration)
    else
      find_first_slot rest duration

/-- Outcome of the slot-selection step of `main` in `src/agent.py`. -/
inductive MainOutcome where
  | createdEvent (slot : Int × Int)
  | noSlotReport
  deriving DecidableEq, Repr

/-- Embedding of `main`'s reaction to `find_first_slot`
(`src/agent.py` lines 160-173): `slot_start_utc` is a `datetime` or `None`,
and `datetime` objects are always truthy, so `if not slot_start_utc` prints
the no-slot message and returns; otherwise `create_event` is invoked on the
returned slot. -/
def main_slot_step (candidate_free : List (Int × Int)) (duration : Int) : MainOutcome :=
  match find_first_slot candidate_free duration with
  | some slot => MainOutcome.createdEvent slot
  | none => MainOutcome.noSlotReport

/-! ### Helper lemmas about the merging sweep -/

/-- The sweep always returns a nonempty list whose head starts at the running
`current_start`. -/
theorem mergeSweep_head_fst (rest : List (Int × Int)) :
    ∀ cs ce : Int, ∃ e t, mergeSweep cs ce rest = (cs, e) :: t := by
  induction rest with
  | nil => intro cs ce; exact ⟨ce, [], rfl⟩
  | cons p r ih =>
    intro cs ce
    obtain ⟨ns, ne⟩ := p
    by_cases h : ns < ce
    · simpa [mergeSweep, h] using ih cs (max ce ne)
    · exact ⟨ce, mergeSweep ns ne r, by simp [mergeSweep, h]⟩

/-- Adjacent intervals output by the sweep satisfy `a.end ≤ b.start`. -/
theorem mergeSweep_chain (rest : List (Int × Int)) :
    ∀ cs ce : Int,
      List.Chain' (fun a b : Int × Int => a.2 ≤ b.1) (mergeSweep cs ce rest) := by
  induction rest with
  | nil => intro cs ce; simp [mergeSweep]
  | cons p r ih =>
    intro cs ce
    obtain ⟨ns, ne⟩ := p
    by_cases h : ns < ce
    · simpa [mergeSweep, h] using ih cs (max ce ne)
    · obtain ⟨e, t, heq⟩ := mergeSweep_head_fst r ns ne
      simp only [mergeSweep, if_neg h, heq]
      exact List.chain'_cons.mpr ⟨by show ce ≤ ns; omega, heq ▸ ih ns ne⟩

/-- The starts of the sweep's output form a sublist of the running start
followed by the input starts. -/
theorem mergeSweep_fst_sublist (rest : List (Int × Int)) :
    ∀ cs ce : Int,
      ((mergeSweep cs ce rest).map Prod.fst).Sublist (cs :: rest.map Prod.fst) := by
  induction rest with
  | nil => intro cs ce; simp [mergeSweep]
  | cons p r ih =>
    intro cs ce
    obtain ⟨ns, ne⟩ := p
    by_cases h : ns < ce
    · simp only [mergeSweep, if_pos h, List.map_cons]
      exact (ih cs (max ce ne)).trans
        ((List.sublist_cons_self ns (r.map Prod.fst)).cons₂ cs)
    · simp only [mergeSweep, if_neg h, List.map_cons]
      exact (ih ns ne).cons₂ cs

/-- On a list already satisfying the adjacency chain the sweep is the
identity. -/
theorem mergeSweep_of_chain (rest : List (Int × Int)) :
    ∀ cs ce : Int,
      List.Chain' (fun a b : Int × Int => a.2 ≤ b.1) ((cs, ce) :: rest) →
      mergeSweep cs ce rest = (cs, ce) :: rest := by
  induction rest with
  | nil => intro cs ce _; simp [mergeSweep]
  | cons p r ih =>
    intro cs ce hch
    obtain ⟨ns, ne⟩ := p
    rw [List.chain'_cons] at hch
    have h1 : ce ≤ ns := hch.1
    have hlt : ¬ ns < ce := not_lt.mpr h1
    simp only [mergeSweep, if_neg hlt]
    rw [ih ns ne hch.2]

/-- The comparator `byStart` is transitive. -/
theorem byStart_trans : ∀ a b c : Int × Int, byStart a b → byStart b c → byStart a c := by
  intro a b c hab hbc
  simp only [byStart, decide_eq_true_eq] at *
  omega

/-- The comparator `byStart` is total. -/
theorem byStart_total : ∀ a b : Int × Int, byStart a b || byStart b a := by
  intro a b
  simp only [byStart, Bool.or_eq_true, decide_eq_true_eq]
  omega

/-- Evaluation rule: when the flattened input is already sorted by start, the
merger is the sweep started at the first interval. -/
theorem merge_busy_intervals_eq_sweep (calendars : List (List (Int × Int)))
    (s e : Int) (rest : List (Int × Int))
    (h : calendars.flatten = (s, e) :: rest)
    (hsorted : ((s, e) :: rest).Pairwise (fun a b : Int × Int => a.1 ≤ b.1)) :
    merge_busy_intervals calendars = mergeSweep s e rest := by
  unfold merge_busy_intervals
  rw [h, List.mergeSort_of_sorted
    (hsorted.imp (by intro a b hab; simpa [byStart, decide_eq_true_eq] using hab))]

/-- The merged output satisfies the adjacency chain `a.end ≤ b.start`. -/
theorem merge_chain_aux (calendars : List (List (Int × Int))) :
    List.Chain' (fun a b : Int × Int => a.2 ≤ b.1) (merge_busy_intervals calendars) := by
  unfold merge_busy_intervals
  cases heq : calendars.flatten.mergeSort byStart with
  | nil => simp
  | cons p rest =>
    obtain ⟨s, e⟩ := p
    exact mergeSweep_chain rest s e

/-- The merged output is pairwise ordered by start. -/
theorem merge_pairwise_aux (calendars : List (List (Int × Int))) :
    (merge_busy_intervals calendars).Pairwise (fun a b : Int × Int => a.1 ≤ b.1) := by
  have hs := List.sorted_mergeSort byStart_trans byStart_total (calendars.flatten)
  unfold merge_busy_intervals
  cases heq : calendars.flatten.mergeSort byStart with
  | nil => simp
  | cons p rest =>
    obtain ⟨s, e⟩ := p
    rw [heq] at hs
    have hfst : (((s, e) :: rest).map Prod.fst).Pairwise (fun a b : Int => a ≤ b) := by
      rw [List.pairwise_map]
      exact hs.imp (by intro a b hab; simpa [byStart, decide_eq_true_eq] using hab)
    have hswept : ((mergeSweep s e rest).map Prod.fst).Pairwise (fun a b : Int => a ≤ b) :=
      hfst.sublist (mergeSweep_fst_sublist rest s e)
    exact List.pairwise_map.mp hswept

/-! ### Helper lemmas about the inverting sweep -/

/-- Sweep slots start at or after the running cursor and end at or before the
window end, provided every busy start is at most the window end. -/
theorem invertSweep_bounds (rest : List (Int × Int)) :
    ∀ c we : Int, (∀ p ∈ rest, p.1 ≤ we) →
      ∀ q ∈ invertSweep c we rest, c ≤ q.1 ∧ q.2 ≤ we := by
  induction rest with
  | nil =>
    intro c we _ q hq
    by_cases h : c < we
    · simp only [invertSweep, if_pos h, List.mem_singleton] at hq
      subst hq
      exact ⟨le_refl c, le_refl we⟩
    · simp [invertSweep, h] at hq
  | cons p r ih =>
    intro c we hb q hq
    obtain ⟨bs, be⟩ := p
    have hbs : bs ≤ we := hb (bs, be) (by simp)
    have hb' : ∀ p ∈ r, p.1 ≤ we := fun p hp => hb p (List.mem_cons_of_mem _ hp)
    by_cases h : c < bs
    · simp only [invertSweep, if_pos h, List.mem_cons] at hq
      rcases hq with rfl | hq
      · exact ⟨le_refl c, hbs⟩
      · have hrec := ih (max c be) we hb' q hq
        exact ⟨le_trans (le_max_left c be) hrec.1, hrec.2⟩
    · simp only [invertSweep, if_neg h] at hq
      have hrec := ih (max c be) we hb' q hq
      exact ⟨le_trans (le_max_left c be) hrec.1, hrec.2⟩

/-- Every slot emitted by the sweep has strictly positive length. -/
theorem invertSweep_pos (rest : List (Int × Int)) :
    ∀ c we : Int, ∀ q ∈ invertSweep c we rest, q.1 < q.2 := by
  induction rest with
  | nil =>
    intro c we q hq
    by_cases h : c < we
    · simp only [invertSweep, if_pos h, List.mem_singleton] at hq
      subst hq
      exact h
    · simp [invertSweep, h] at hq
  | cons p r ih =>
    intro c we q hq
    obtain ⟨bs, be⟩ := p
    by_cases h : c < bs
    · simp only [invertSweep, if_pos h, List.mem_cons] at hq
      rcases hq with rfl | hq
      · exact h
      · exact ih (max c be) we q hq
    · simp only [invertSweep, if_neg h] at hq
      exact ih (max c be) we q hq

/-! ### Helper lemmas about first-fit selection -/

/-- Characterisation of a successful first-fit selection: the list splits at
the first sufficiently long candidate and the result is that candidate's
start, truncated to the requested duration. -/
theorem find_first_slot_eq_some_iff (cs : List (Int × Int)) (d : Int) (r : Int × Int) :
    find_first_slot cs d = some r ↔
      ∃ l₁ c l₂, cs = l₁ ++ c :: l₂ ∧ (∀ p ∈ l₁, p.2 - p.1 < d) ∧
        d ≤ c.2 - c.1 ∧ r = (c.1, c.1 + d) := by
  induction cs with
  | nil =>
    constructor
    · intro h
      exact absurd h (by simp [find_first_slot])
    · rintro ⟨l₁, c, l₂, hdec, -, -, -⟩
      exact absurd hdec (by simp)
  | cons p t ih =>
    obtain ⟨s, e⟩ := p
    by_cases h : d ≤ e - s
    · simp only [find_first_slot, if_pos h]
      constructor
      · intro hr
        exact ⟨[], (s, e), t, rfl, by simp, h, (Option.some.inj hr).symm⟩
      · rintro ⟨l₁, c, l₂, hdec, hshort, hc, hr⟩
        cases l₁ with
        | nil =>
          simp only [List.nil_append] at hdec
          injection hdec with h1 h2
          subst h1
          rw [hr]
        | cons q l₁ =>
          simp only [List.cons_append] at hdec
          injection hdec with h1 h2
          have hq : e - s < d := by
            have := hshort q (List.mem_cons_self q l₁)
            rw [← h1] at this
            exact this
          omega
    · simp only [find_first_slot, if_neg h]
      rw [ih]
      constructor
      · rintro ⟨l₁, c, l₂, hdec, hshort, hc, hr⟩
        refine ⟨(s, e) :: l₁, c, l₂, by rw [hdec, List.cons_append], ?_, hc, hr⟩
        intro p hp
        rcases List.mem_cons.mp hp with rfl | hp'
        · show e - s < d
          omega
        · exact hshort p hp'
      · rintro ⟨l₁, c, l₂, hdec, hshort, hc, hr⟩
        cases l₁ with
        | nil =>
          simp only [List.nil_append] at hdec
          injection hdec with h1 h2
          rw [← h1] at hc
          have hc' : d ≤ e - s := hc
          exact absurd hc' h
        | cons q l₁ =>
          simp only [List.cons_append] at hdec
          injection hdec with h1 h2
          exact ⟨l₁, c, l₂, h2, fun p hp => hshort p (List.mem_cons_of_mem q hp), hc, hr⟩

/-- An all-too-short candidate list makes first-fit return `none`. -/
theorem find_first_slot_eq_none_aux (cs : List (Int × Int)) (d : Int) :
    (∀ p ∈ cs, p.2 - p.1 < d) → find_first_slot cs d = none := by
  induction cs with
  | nil => intro _; rfl
  | cons p t ih =>
    intro h
    obtain ⟨s, e⟩ := p
    have hse : e - s < d := h (s, e) (List.mem_cons_self _ _)
    simp only [find_first_slot]
    rw [if_neg (by omega)]
    exact ih (fun q hq => h q (List.mem_cons_of_mem _ hq))

/-! ### Claim theorems -/

/-- C1 counterexample: the Free-Slot Inverter is not robust to busy intervals
lying entirely after the window end. For window `[0, 10]` and the single
merged busy interval `(20, 30)`, the returned slot `(0, 20)` ends at `20`,
which is not `≤ 10`, so the slot is not contained in the window. -/
theorem invert_busy_to_free_extras_counterexample :
    invert_busy_to_free [(20, 30)] 0 10 = [(0, 20)] ∧ ¬ ((20 : Int) ≤ 10) := by
  decide

/-- C1 (amended): every interval returned by the Free-Slot Inverter is
contained in `[windowStart, windowEnd]`, provided `windowStart ≤ windowEnd`
and additionally every merged busy interval starts no later than
`windowEnd`; the claimed robustness to extras after the window end fails. -/
theorem invert_busy_to_free_contained (merged_busy : List (Int × Int))
    (window_start window_end : Int) (hw : window_start ≤ window_end)
    (hb : ∀ p ∈ merged_busy, p.1 ≤ window_end) :
    ∀ q ∈ invert_busy_to_free merged_busy window_start window_end,
      window_start ≤ q.1 ∧ q.2 ≤ window_end := by
  intro q hq
  by_cases h : merged_busy = []
  · simp only [invert_busy_to_free, if_pos h, List.mem_singleton] at hq
    subst hq
    exact ⟨le_refl window_start, le_refl window_end⟩
  · simp only [invert_busy_to_free, if_neg h] at hq
    exact invertSweep_bounds merged_busy window_start window_end hb q hq

/-- Witness for C1: the containment theorem applied to busy list `[(3, 5)]`,
window `[0, 10]` and the returned slot `(0, 3)`. -/
theorem invert_busy_to_free_contained_witness :
    (0 : Int) ≤ 0 ∧ (3 : Int) ≤ 10 :=
  invert_busy_to_free_contained [(3, 5)] 0 10 (by decide) (by decide) (0, 3) (by decide)

/-- C2 counterexample: the Window Builder maps `"afternoon"` and `"evening"`
to the full workday 09:00-17:00 (here minutes 540-1020 on day 0, UTC), not
to 13:00-17:00 (780-1020) resp. 18:00-21:00 (1080-1260) as claimed. -/
theorem preferred_hours_to_windows_counterexample :
    preferred_hours_to_windows "afternoon" 0 0 = [(540, 1020)] ∧
    preferred_hours_to_windows "afternoon" 0 0 ≠ [(780, 1020)] ∧
    preferred_hours_to_windows "evening" 0 0 = [(540, 1020)] ∧
    preferred_hours_to_windows "evening" 0 0 ≠ [(1080, 1260)] := by
  decide

/-- C2 (amended): for every day and timezone, a tag whose lowercasing
contains `"morning"` yields the local window 09:00-12:00, and every other
tag — including `"afternoon"`, `"evening"` and `"none"` — yields the full
workday 09:00-17:00. -/
theorem preferred_hours_to_windows_cases (preferred_times : String) (day tz : Int) :
    (strContains (str_lower preferred_times) "morning" = true →
      preferred_hours_to_windows preferred_times day tz =
        [(combine day 540 tz, combine day 720 tz)]) ∧
    (strContains (str_lower preferred_times) "morning" = false →
      preferred_hours_to_windows preferred_times day tz =
        [(combine day 540 tz, combine day 1020 tz)]) := by
  constructor <;> intro h <;> simp [preferred_hours_to_windows, h]

/-- Witness for C2: the case theorem applied to the tag `"Morning"` on day 2
with offset 30 (morning branch), and to `"none"` on day 0 offset 0 (default
branch). -/
theorem preferred_hours_to_windows_cases_witness :
    preferred_hours_to_windows "Morning" 2 30 = [(3390, 3570)] ∧
    preferred_hours_to_windows "none" 0 0 = [(540, 1020)] := by
  constructor
  · have h := (preferred_hours_to_windows_cases "Morning" 2 30).1 (by decide)
    rw [h]
    norm_num [combine]
  · have h := (preferred_hours_to_windows_cases "none" 0 0).2 (by decide)
    rw [h]
    norm_num [combine]

/-- C3 counterexample: merging the single calendar `[(0, 1), (1, 2)]` leaves
the touching pair adjacent in the output, whose ends and starts satisfy
`a.end = b.start`, refuting the strict invariant `a.end < b.start`. -/
theorem merge_busy_intervals_touching_counterexample :
    merge_busy_intervals [[(0, 1), (1, 2)]] = [(0, 1), (1, 2)] ∧ ¬ ((1 : Int) < 1) := by
  constructor
  · rw [merge_busy_intervals_eq_sweep [[(0, 1), (1, 2)]] 0 1 [(1, 2)] (by simp) (by decide)]
    decide
  · decide

/-- C3 (amended): for every input, adjacent pairs `(a, b)` of the Interval
Merger's output satisfy `a.end ≤ b.start` — overlapping intervals are
coalesced, but touching intervals may remain adjacent with equality. -/
theorem merge_busy_intervals_adjacent_le (calendars : List (List (Int × Int))) :
    List.Chain' (fun a b : Int × Int => a.2 ≤ b.1) (merge_busy_intervals calendars) :=
  merge_chain_aux calendars

/-- C4: the merger's sweep uses a strict `<` comparison: with `s1 ≤ s2`, two
single-interval calendars whose intervals touch (`e1 = s2`) stay separate in
the output, while overlapping ones (`s2 < e1`) merge into
`(s1, max e1 e2)`. -/
theorem merge_busy_intervals_strict_lt_policy (s1 e1 s2 e2 : Int) (h12 : s1 ≤ s2) :
    (e1 = s2 → merge_busy_intervals [[(s1, e1)], [(s2, e2)]] = [(s1, e1), (s2, e2)]) ∧
    (s2 < e1 → merge_busy_intervals [[(s1, e1)], [(s2, e2)]] = [(s1, max e1 e2)]) := by
  have hm : merge_busy_intervals [[(s1, e1)], [(s2, e2)]] = mergeSweep s1 e1 [(s2, e2)] :=
    merge_busy_intervals_eq_sweep _ s1 e1 [(s2, e2)] (by simp)
      (by simp [List.pairwise_cons, h12])
  constructor
  · intro he
    have hlt : ¬ s2 < e1 := by omega
    rw [hm]
    simp [mergeSweep, hlt]
  · intro hlt
    rw [hm]
    simp [mergeSweep, hlt]

/-- Witness for C4: the policy theorem applied to 9:00-10:00 touching
10:00-11:00 (minutes 540-600, 600-660: not merged), and to 9:00-10:00
overlapping 9:30-11:00 (540-600, 570-660: merged to 540-660). -/
theorem merge_busy_intervals_strict_lt_policy_witness :
    merge_busy_intervals [[(540, 600)], [(600, 660)]] = [(540, 600), (600, 660)] ∧
    merge_busy_intervals [[(540, 600)], [(570, 660)]] = [(540, 660)] := by
  constructor
  · exact (merge_busy_intervals_strict_lt_policy 540 600 600 660 (by decide)).1 (by decide)
  · have h := (merge_busy_intervals_strict_lt_policy 540 600 570 660 (by decide)).2 (by decide)
    rw [h]
    norm_num

/-- C5: for every candidate list sorted ascending by start and positive
duration, the First-Fit Selector returns `some r` exactly when the list
splits as `l₁ ++ c :: l₂` with every earlier candidate in `l₁` too short,
`c` long enough, and `r = (c.start, c.start + duration)` — the requested
duration from the first sufficiently long candidate's start. -/
theorem find_first_slot_first_fit (candidate_free : List (Int × Int)) (duration : Int)
    (hd : 0 < duration)
    (hsorted : candidate_free.Pairwise (fun a b : Int × Int => a.1 ≤ b.1)) (r : Int × Int) :
    find_first_slot candidate_free duration = some r ↔
      ∃ l₁ c l₂, candidate_free = l₁ ++ c :: l₂ ∧
        (∀ p ∈ l₁, p.2 - p.1 < duration) ∧ duration ≤ c.2 - c.1 ∧
        r = (c.1, c.1 + duration) :=
  find_first_slot_eq_some_iff candidate_free duration r

/-- Witness for C5: over candidates `[(540, 560), (600, 660)]` with duration
30 the selector skips the 20-minute candidate and returns `(600, 630)`. -/
theorem find_first_slot_first_fit_witness :
    find_first_slot [(540, 560), (600, 660)] 30 = some (600, 630) :=
  (find_first_slot_first_fit [(540, 560), (600, 660)] 30 (by decide) (by decide)
    (600, 630)).mpr ⟨[(540, 560)], (600, 660), [], rfl, by decide, by decide, by decide⟩

/-- C6 counterexample: with an empty merged busy list and
`windowStart = windowEnd = 0` the Free-Slot Inverter returns the zero-length
slot `[(0, 0)]`, not the empty sequence. -/
theorem invert_busy_to_free_degenerate_counterexample :
    invert_busy_to_free [] 0 0 = [(0, 0)] ∧ invert_busy_to_free [] 0 0 ≠ [] := by
  decide

/-- C6 (amended): with an empty merged busy list the inverter returns the
whole window as a single slot — zero-length when
`windowStart = windowEnd` — while for a nonempty merged busy list every
returned interval has strictly positive length. -/
theorem invert_busy_to_free_positive_length :
    (∀ ws : Int, invert_busy_to_free [] ws ws = [(ws, ws)]) ∧
    (∀ (mb : List (Int × Int)) (ws we : Int), mb ≠ [] →
      ∀ q ∈ invert_busy_to_free mb ws we, q.1 < q.2) := by
  constructor
  · intro ws
    simp [invert_busy_to_free]
  · intro mb ws we hmb q hq
    simp only [invert_busy_to_free, if_neg hmb] at hq
    exact invertSweep_pos mb ws we q hq

/-- Witness for C6: the empty case at `ws = 3` and the positive-length case
applied to busy list `[(2, 4)]`, window `[0, 10]`, returned slot `(0, 2)`. -/
theorem invert_busy_to_free_positive_length_witness :
    invert_busy_to_free [] 3 3 = [(3, 3)] ∧ (0 : Int) < 2 :=
  ⟨invert_busy_to_free_positive_length.1 3,
   invert_busy_to_free_positive_length.2 [(2, 4)] 0 10 (by decide) (0, 2) (by decide)⟩

/-- C7: when every candidate is shorter than the requested duration
(including the empty list, vacuously), the First-Fit Selector returns the
distinguished absent value `none` — never an exception, since the embedding
is a total function — and `main` takes the no-slot report branch, attempting
no event creation. -/
theorem find_first_slot_not_found (candidate_free : List (Int × Int)) (duration : Int)
    (h : ∀ p ∈ candidate_free, p.2 - p.1 < duration) :
    find_first_slot candidate_free duration = none ∧
      main_slot_step candidate_free duration = MainOutcome.noSlotReport := by
  have hn := find_first_slot_eq_none_aux candidate_free duration h
  exact ⟨hn, by simp [main_slot_step, hn]⟩

/-- Witness for C7: a single 10-minute candidate cannot host a 30-minute
meeting, so selection yields `none` and no event is created. -/
theorem find_first_slot_not_found_witness :
    find_first_slot [(0, 10)] 30 = none ∧
      main_slot_step [(0, 10)] 30 = MainOutcome.noSlotReport :=
  find_first_slot_not_found [(0, 10)] 30 (by decide)

/-- C8 counterexample: no fail-fast validation exists. The malformed
interval `(10, 2)` (start after end) flows through the Interval Merger
unchanged and the Free-Slot Inverter then silently emits the overlapping
slots `(0, 10)` and `(2, 20)` — no `ValidationError` is ever raised. -/
theorem no_validation_error_counterexample :
    merge_busy_intervals [[(10, 2)]] = [(10, 2)] ∧
    invert_busy_to_free [(10, 2)] 0 20 = [(0, 10), (2, 20)] := by
  constructor
  · rw [merge_busy_intervals_eq_sweep [[(10, 2)]] 10 2 [] (by simp) (by decide)]
    decide
  · decide

/-- C8 (amended): the core performs no interval validation: the Interval
Merger returns any single malformed interval with `end < start` unchanged,
as a normal value rather than failing. -/
theorem merge_busy_intervals_accepts_malformed (s e : Int) (h : e < s) :
    merge_busy_intervals [[(s, e)]] = [(s, e)] := by
  rw [merge_busy_intervals_eq_sweep [[(s, e)]] s e [] (by simp) (by simp)]
  rfl

/-- Witness for C8: the malformed interval `(3, 1)` is returned unchanged. -/
theorem merge_busy_intervals_accepts_malformed_witness :
    merge_busy_intervals [[(3, 1)]] = [(3, 1)] :=
  merge_busy_intervals_accepts_malformed 3 1 (by decide)

/-- C9: merging is idempotent — re-feeding the merged output as the busy
list of a single calendar reproduces it exactly. -/
theorem merge_busy_intervals_idempotent (calendars : List (List (Int × Int))) :
    merge_busy_intervals [merge_busy_intervals calendars] = merge_busy_intervals calendars := by
  have hpw := merge_pairwise_aux calendars
  have hch := merge_chain_aux calendars
  cases hM : merge_busy_intervals calendars with
  | nil =>
    unfold merge_busy_intervals
    simp
  | cons p t =>
    obtain ⟨s, e⟩ := p
    rw [hM] at hpw hch
    unfold merge_busy_intervals
    rw [show ([(s, e) :: t] : List (List (Int × Int))).flatten = (s, e) :: t by simp,
      List.mergeSort_of_sorted
        (hpw.imp (by intro a b hab; simpa [byStart, decide_eq_true_eq] using hab))]
    exact mergeSweep_of_chain t s e hch

/-- C10: for every preference tag, day and timezone, the Window Builder
returns exactly one window, and that window's start is strictly before its
end. -/
theorem preferred_hours_to_windows_single_window (preferred_times : String) (day tz : Int) :
    ∃ s e : Int, preferred_hours_to_windows preferred_times day tz = [(s, e)] ∧ s < e := by
  cases hc : strContains (str_lower preferred_times) "morning" with
  | true =>
    refine ⟨combine day 540 tz, combine day 720 tz,
      by simp [preferred_hours_to_windows, hc], ?_⟩
    simp only [combine]
    omega
  | false =>
    refine ⟨combine day 540 tz, combine day 1020 tz,
      by simp [preferred_hours_to_windows, hc], ?_⟩
    simp only [combine]
    omega

end CalendarAgent
